import Mathlib

/-!
Verification development for `makedocs.py`: a scanner that discovers
per-day/per-language/per-user solution directories, and a document writer
that renders an index of users, one page per user, a by-language overview
and a by-day overview in AsciiDoc-style markup.

The embedding is shallow: the filesystem is a finite tree of named entries,
`list_solutions` is the directory scan, and the three writer functions
return the exact strings the Python program writes to its output files.
Machine strings are Lean `String`s compared by code point, integers are
`Int`/`Nat`, and every definition is executable.
-/

/-! ## String primitives

Helpers mirroring the semantics of the Python string operations used by the
source (slicing by code point, prefix test, lexicographic comparison by
code point as in CPython's `str` ordering, `str.format` padding). They are
implemented over `List Char` so that all proofs and concrete evaluations
reduce inside the kernel.
-/

/-- Concatenation of a list of strings, in order (the writer appends pieces
to a file sequentially; concatenating the pieces yields the file body). -/
def concatAll (l : List String) : String := l.foldr (fun a b => a ++ b) ""

/-- The code points of a string, as integers. -/
def strCodes (s : String) : List Int := s.toList.map (fun c => (c.toNat : Int))

/-- Length in code points (Python `len`). -/
def strLen (s : String) : Nat := s.toList.length

/-- Python `s.startswith(pre)`. -/
def strStarts (s pre : String) : Bool := pre.toList.isPrefixOf s.toList

/-- Python slicing `s[n:]` (by code point). -/
def strDropChars (s : String) (n : Nat) : String := String.mk (s.toList.drop n)

/-- Lexicographic `≤` on integer sequences. Used to model CPython's
lexicographic comparison of strings (by code point) and of key tuples. -/
def intLeL : List Int → List Int → Bool
  | [], _ => true
  | _ :: _, [] => false
  | a :: as, b :: bs => decide (a < b) || (a == b && intLeL as bs)

/-- Lexicographic `<` on integer sequences. -/
def intLtL : List Int → List Int → Bool
  | [], [] => false
  | [], _ :: _ => true
  | _ :: _, [] => false
  | a :: as, b :: bs => decide (a < b) || (a == b && intLtL as bs)

/-- CPython string `≤`: lexicographic by code point. -/
def strLe (a b : String) : Bool := intLeL (strCodes a) (strCodes b)

/-- CPython string `<`: lexicographic by code point. -/
def strLt (a b : String) : Bool := intLtL (strCodes a) (strCodes b)

/-- Python truthiness of an optional string (`None` and `""` are falsy). -/
def pyTruthy : Option String → Bool
  | none => false
  | some r => !(r == "")

/-- `str.format` right-alignment padding to width 2 (format spec `:2` on an
int right-aligns; on the empty string it also yields two spaces). -/
def pad2 (s : String) : String :=
  if strLen s < 2 then String.mk (List.replicate (2 - strLen s) ' ') ++ s else s

/-- `str.format` left-alignment padding to width 10 (format spec `:10` on a
string left-aligns, appending spaces). -/
def pad10r (s : String) : String :=
  if strLen s < 10 then s ++ String.mk (List.replicate (10 - strLen s) ' ') else s

/-! ## Python `int()` parsing

`int(day_dir_name[3:])` in the source accepts optional surrounding
whitespace, an optional sign, and a nonempty digit string in which single
underscores may separate digits; anything else raises `ValueError`
(modelled as `none`). Non-ASCII digit support is out of scope: directory
names in scope are ASCII. -/

/-- Whitespace stripped by Python `int()`. -/
def isPySpace (c : Char) : Bool :=
  c == ' ' || c == '\t' || c == '\n' || c == '\r' || c == '\x0b' || c == '\x0c'

/-- Numeric value of an ASCII digit. -/
def digitVal (c : Char) : Nat := c.toNat - 48

/-- Digits of the tail of a Python integer literal, accumulating a value;
an underscore must be followed by a digit. -/
def pyDigitsCore : Nat → List Char → Option Nat
  | acc, [] => some acc
  | acc, '_' :: rest =>
      match rest with
      | c :: rest2 => if c.isDigit then pyDigitsCore (acc * 10 + digitVal c) rest2 else none
      | [] => none
  | acc, c :: rest => if c.isDigit then pyDigitsCore (acc * 10 + digitVal c) rest else none

/-- A nonempty Python digit string (must start with a digit). -/
def pyDigits : List Char → Option Nat
  | [] => none
  | c :: rest => if c.isDigit then pyDigitsCore (digitVal c) rest else none

/-- Optional sign followed by digits. -/
def pyIntOfChars (cs : List Char) : Option Int :=
  match cs with
  | '+' :: rest => (pyDigits rest).map (fun n => (n : Int))
  | '-' :: rest => (pyDigits rest).map (fun n => -(n : Int))
  | _ => (pyDigits cs).map (fun n => (n : Int))

/-- Python `int(s)`: strip surrounding whitespace, then sign and digits. -/
def pyInt (s : String) : Option Int :=
  pyIntOfChars (((s.toList.dropWhile isPySpace).reverse.dropWhile isPySpace).reverse)

/-! ## `urllib.parse.quote`

`quote(s)` with the default `safe='/'` leaves ASCII alphanumerics and
`_.-~/` untouched and replaces every other character by the `%XX`
uppercase-hex encoding of each of its UTF-8 bytes. -/

/-- UTF-8 bytes of a character. -/
def utf8Bytes (c : Char) : List Nat :=
  let n := c.toNat
  if n < 128 then [n]
  else if n < 2048 then [192 + n / 64, 128 + n % 64]
  else if n < 65536 then [224 + n / 4096, 128 + n / 64 % 64, 128 + n % 64]
  else [240 + n / 262144, 128 + n / 4096 % 64, 128 + n / 64 % 64, 128 + n % 64]

/-- Uppercase hexadecimal digit. -/
def hexDig (n : Nat) : Char := if n < 10 then Char.ofNat (48 + n) else Char.ofNat (55 + n)

/-- Percent-encoding of one byte. -/
def pctByte (b : Nat) : String := String.mk ['%', hexDig (b / 16), hexDig (b % 16)]

/-- Characters `quote` leaves verbatim: ASCII alphanumerics, `_.-~`, and
the default-safe `/`. -/
def quoteSafe (c : Char) : Bool :=
  c.isAlpha || c.isDigit || c == '_' || c == '.' || c == '-' || c == '~' || c == '/'

/-- `urllib.parse.quote(s)` with the default `safe='/'`. -/
def pyQuote (s : String) : String :=
  concatAll (s.toList.map (fun c =>
    if quoteSafe c then String.mk [c] else concatAll ((utf8Bytes c).map pctByte)))

/-! ## The filesystem model and the scanner (`list_solutions`) -/

/-- A filesystem entry: a plain file, or a directory with a named listing.
The listing order models the implementation-defined `os.listdir` order. -/
inductive FsEntry where
  | file : FsEntry
  | dir : List (String × FsEntry) → FsEntry

/-- `README_FILE` in the source. -/
def readmeName : String := "README.adoc"

/-- `DAY_DIR_PREFIX` in the source. -/
def dayPre : String := "day"

/-- One discovered solution (the `Solution` dataclass). `dir` is the path
of the solution's folder relative to the project root, as segments. -/
structure Solution where
  user : String
  lang : String
  day : Int
  dir : List String
  readme_file : Option String
deriving DecidableEq

/-- `os.path.exists(os.path.join(user_dir, README_FILE))`: any entry of the
user directory named `README.adoc` counts, file or directory. -/
def hasReadme (kids : List (String × FsEntry)) : Bool :=
  kids.any (fun p => p.1 == readmeName)

/-- Innermost loop of `list_solutions`: walk the children of a language
directory; keep only directories, each being a user; record whether the
conventional readme file exists inside. -/
def scanUsers (dayName lang : String) (day : Int) (kids : List (String × FsEntry)) :
    List Solution :=
  kids.flatMap (fun p =>
    match p.2 with
    | .file => []
    | .dir uc =>
        [{ user := p.1, lang := lang, day := day, dir := [dayName, lang, p.1],
           readme_file := if hasReadme uc then some readmeName else none }])

/-- Middle loop of `list_solutions`: walk the children of a day directory;
keep only directories, each being a language. -/
def scanLangs (dayName : String) (day : Int) (kids : List (String × FsEntry)) :
    List Solution :=
  kids.flatMap (fun p =>
    match p.2 with
    | .file => []
    | .dir lc => scanUsers dayName p.1 day lc)

/-- `list_solutions(project_dir)`: walk the children of the project root;
keep only directories whose name starts with `"day"` and whose suffix
parses as a Python integer (the day); recurse into languages and users. -/
def list_solutions (root : List (String × FsEntry)) : List Solution :=
  root.flatMap (fun p =>
    match p.2 with
    | .file => []
    | .dir dc =>
        if strStarts p.1 dayPre then
          match pyInt (strDropChars p.1 (strLen dayPre)) with
          | some day => scanLangs p.1 day dc
          | none => []
        else [])

/-- Spec-side definition, following the spec's words: the directory paths of
shape `day<N>/<language>/<user>` under the root — three nested directory
levels where the first level's name starts with the fixed prefix and its
suffix parses as an integer. Compared with the scanner's output for the
bijection claim. -/
def specMatchingDirs (root : List (String × FsEntry)) : List (List String) :=
  root.flatMap (fun p =>
    match p.2 with
    | .file => []
    | .dir dc =>
        if strStarts p.1 dayPre && (pyInt (strDropChars p.1 (strLen dayPre))).isSome then
          dc.flatMap (fun q =>
            match q.2 with
            | .file => []
            | .dir lc =>
                lc.flatMap (fun r =>
                  match r.2 with
                  | .file => []
                  | .dir _ => [[p.1, q.1, r.1]]))
        else [])

/-! ## Sort keys

CPython's `sorted`/`list.sort` is a stable sort by a key, comparing key
tuples lexicographically and strings by code point. A stable sort for a
total preorder has a unique result, so the structurally recursive
`List.insertionSort` (also stable, inserting earlier elements before equal
later ones) computes exactly the list CPython produces. Key tuples are
encoded as integer sequences; a `-1` terminator after a string component
that is followed by further components reproduces tuple comparison (every
code point is `≥ 0`, so a shorter string compares below its extensions
exactly as in Python). -/

/-- Stable sort by a boolean `≤`, modelling CPython's stable `sorted`. -/
def sortedBy (le : α → α → Bool) (l : List α) : List α :=
  List.insertionSort (fun a b => le a b = true) l

/-- Key `(-n_documented, -n_total, user)` of `make_user_docs`'s user sort. -/
def scoreKey (x : String × Nat × Nat) : List Int :=
  -(x.2.2 : Int) :: -(x.2.1 : Int) :: strCodes x.1

/-- Comparison for the user-index sort. -/
def scoreLe (a b : String × Nat × Nat) : Bool := intLeL (scoreKey a) (scoreKey b)

/-- Key `(day, lang)` of the per-user page sort. -/
def dayLangKey (s : Solution) : List Int := s.day :: strCodes s.lang

/-- Comparison for the per-user page sort. -/
def dayLangLe (a b : Solution) : Bool := intLeL (dayLangKey a) (dayLangKey b)

/-- Key `(lang, day, user)` of the by-language sort. -/
def langDayUserKey (s : Solution) : List Int :=
  strCodes s.lang ++ (-1 : Int) :: s.day :: strCodes s.user

/-- Comparison for the by-language sort. -/
def langDayUserLe (a b : Solution) : Bool := intLeL (langDayUserKey a) (langDayUserKey b)

/-- Key `(day, lang, user)` of the by-day sort. -/
def dayLangUserKey (s : Solution) : List Int :=
  s.day :: (strCodes s.lang ++ (-1 : Int) :: strCodes s.user)

/-- Comparison for the by-day sort. -/
def dayLangUserLe (a b : Solution) : Bool := intLeL (dayLangUserKey a) (dayLangUserKey b)

/-! ## The document writer -/

/-- `"[[top]]\n"` written at the top of every document. -/
def topAnchor : String := "[[top]]\n"

/-- The navigation line of the three overview documents. -/
def navLine : String :=
  "link:by_day.html[Solutions by Day] &bull; link:by_lang.html[Solutions by Language] &bull; link:by_user.html[Solutions by User]\n\n"

/-- The navigation line of a per-user page (paths go up one level). -/
def navLineUp : String :=
  "link:../by_day.html[Solutions by Day] &bull; link:../by_lang.html[Solutions by Language] &bull; link:../by_user.html[Solutions by User]\n\n"

/-- The anchor name `sol-<day>` attached to a solution entry. -/
def anchorOf (day : Int) : String := "sol-" ++ toString day

/-- `os.path.join` on relative POSIX path segments. -/
def pathJoin : List String → String
  | [] => ""
  | [x] => x
  | x :: y :: rest => x ++ "/" ++ pathJoin (y :: rest)

/-- The readme path resolution in `make_user_docs`: keep a falsy or absolute
`readme_file` as is, otherwise join it to the solution directory. -/
def resolveReadme (s : Solution) : Option String :=
  if pyTruthy s.readme_file = false then s.readme_file
  else if strStarts ((s.readme_file).getD "") "/" then s.readme_file
  else (s.readme_file).map (fun r => pathJoin (s.dir ++ [r]))

/-- The generated placeholder heading for an undocumented solution. -/
def placeholderFor (s : Solution) : String :=
  "== Undocumented " ++ s.lang ++ " solution for day " ++ toString s.day ++ "\n"

/-- One entry of a per-user page: anchor, then either the include directive
for the resolved readme (if truthy) or the placeholder heading, then the
top link. -/
def userEntry (s : Solution) : String :=
  "\n[[" ++ anchorOf s.day ++ "]]\n"
  ++ (match resolveReadme s with
      | some r => if r == "" then placeholderFor s else "include::" ++ r ++ "[leveloffset=0]\n"
      | none => placeholderFor s)
  ++ "link:#top[Top]\n"

/-- The full content of one per-user page. -/
def userPageFor (u : String) (usols : List Solution) : String :=
  topAnchor ++ "= Solutions by " ++ u ++ "\n\n" ++ navLineUp
  ++ concatAll ((sortedBy dayLangLe usols).map userEntry)

/-- The `'s' if n_tot != 1 else ''` plural suffix. -/
def plural (n : Nat) : String := if n == 1 then "" else "s"

/-- One summary line of the user index. -/
def indexLine (u : String) (t d : Nat) : String :=
  "| link:users/" ++ pyQuote u ++ ".html[" ++ u ++ "] | " ++ toString t ++ " Solution"
  ++ plural t ++ " (" ++ toString d ++ " documented)\n"

/-- `sols_for_users.setdefault(sol.user, []).append(sol)`: append to the
first entry with the solution's user, or add a new entry at the end. -/
def addSol : List (String × List Solution) → Solution → List (String × List Solution)
  | [], s => [(s.user, [s])]
  | (u, g) :: rest, s =>
      if u = s.user then (u, g ++ [s]) :: rest else (u, g) :: addSol rest s

/-- The per-user grouping dict of `make_user_docs`: insertion-ordered keys,
each with that user's solutions in input order. -/
def groupByUser (sols : List Solution) : List (String × List Solution) :=
  sols.foldl addSol []

/-- Number of solutions in a group with a truthy `readme_file`. -/
def docCount (g : List Solution) : Nat :=
  (g.filter (fun s => pyTruthy s.readme_file)).length

/-- The `user_scores` list: `(user, n_tot, n_doc)` per group, in group
order. -/
def userScores (sols : List Solution) : List (String × Nat × Nat) :=
  (groupByUser sols).map (fun p => (p.1, p.2.length, docCount p.2))

/-- `user_scores` after `sort(key=lambda x: (-x[2], -x[1], x[0]))`. -/
def userScoresSorted (sols : List Solution) : List (String × Nat × Nat) :=
  sortedBy scoreLe (userScores sols)

/-- `sols_for_users[user]`. -/
def lookupGroup (u : String) (gs : List (String × List Solution)) : List Solution :=
  match gs.find? (fun p => decide (p.1 = u)) with
  | some p => p.2
  | none => []

/-- The output of `make_user_docs`: the summary document and the per-user
documents in the order they are written. -/
structure UserDocsOutput where
  index : String
  userFiles : List (String × String)
deriving DecidableEq

/-- `make_user_docs`: group by user, score, sort, then emit the summary
table and one page per user in score order. -/
def make_user_docs (sols : List Solution) : UserDocsOutput :=
  let gs := groupByUser sols
  let sorted := userScoresSorted sols
  { index := topAnchor ++ "= Solutions by user\n\n" ++ navLine ++ "|===\n"
      ++ concatAll (sorted.map (fun x => indexLine x.1 x.2.1 x.2.2)) ++ "|===\n",
    userFiles := sorted.map (fun x => (x.1, userPageFor x.1 (lookupGroup x.1 gs))) }

/-- The link cell shared by by-language and by-day rows. -/
def linkOf (s : Solution) : String :=
  "link:users/" ++ pyQuote s.user ++ ".html#" ++ anchorOf s.day ++ "[" ++ s.user ++ "]\n"

/-- Closing of a table section followed by a top link, as written between
sections. -/
def sectionClose : String := "|===\n\nlink:#top[Top]\n\n"

/-- Closing of the final table section of a document. -/
def docFoot : String := "|===\nlink:#top[Top]\n\n"

/-- One by-language row: the day (blank if equal to `cur_day`) padded to
width 2, and the user link. -/
def langRow (curDay : Option Int) (s : Solution) : String :=
  "| " ++ pad2 (if curDay == some s.day then "" else toString s.day) ++ " | " ++ linkOf s

/-- The text written for one solution in `make_lang_doc`'s loop, given the
loop state `(cur_lang, cur_day)` from the previously processed solution:
an optional section break plus the row. -/
def langChunk (curLang : Option String) (curDay : Option Int) (s : Solution) : String :=
  (if curLang == some s.lang then ""
   else (match curLang with | none => "" | some _ => sectionClose)
        ++ "== " ++ s.lang ++ "\n\n|===\n")
  ++ langRow curDay s

/-- `make_lang_doc`'s loop: after each solution the state becomes its
`(lang, day)`; `cur_day` is not reset at section boundaries. -/
def langChunks : Option String → Option Int → List Solution → List String
  | _, _, [] => []
  | cl, cd, s :: rest => langChunk cl cd s :: langChunks (some s.lang) (some s.day) rest

/-- The by-language iteration order: `sorted(sols, key=(lang, day, user))`. -/
def langSorted (sols : List Solution) : List Solution := sortedBy langDayUserLe sols

/-- `make_lang_doc`: the full content of the by-language document. The
final footer is written exactly when the loop ran (`cur_lang != None`). -/
def make_lang_doc (sols : List Solution) : String :=
  let l := langSorted sols
  topAnchor ++ "= Solutions by language\n\n" ++ navLine
  ++ concatAll (langChunks none none l)
  ++ (match l with | [] => "" | _ :: _ => docFoot)

/-- One by-day row: the language (blank if equal to `cur_lang`) padded to
width 10, and the user link. -/
def dayRow (curLang : Option String) (s : Solution) : String :=
  "| " ++ pad10r (if curLang == some s.lang then "" else s.lang) ++ " | " ++ linkOf s

/-- The text written for one solution in `make_day_doc`'s loop. -/
def dayChunk (curDay : Option Int) (curLang : Option String) (s : Solution) : String :=
  (if curDay == some s.day then ""
   else (match curDay with | none => "" | some _ => sectionClose)
        ++ "== Day " ++ toString s.day ++ "\n\n|===\n")
  ++ dayRow curLang s

/-- `make_day_doc`'s loop. -/
def dayChunks : Option Int → Option String → List Solution → List String
  | _, _, [] => []
  | cd, cl, s :: rest => dayChunk cd cl s :: dayChunks (some s.day) (some s.lang) rest

/-- The by-day iteration order: `sorted(sols, key=(day, lang, user))`. -/
def daySorted (sols : List Solution) : List Solution := sortedBy dayLangUserLe sols

/-- `make_day_doc`: the full content of the by-day document. -/
def make_day_doc (sols : List Solution) : String :=
  topAnchor ++ "= Solutions by day\n\n" ++ navLine
  ++ concatAll (dayChunks none none (daySorted sols))
  ++ (match daySorted sols with | [] => "" | _ :: _ => docFoot)

/-- Spec-side (amended) by-language chunk, phrased over the previous row of
the document rather than loop state: the day cell shows the day iff it
differs from the previous row's day — runs of equal days are tracked across
the whole document, not reset at section boundaries — and the first row of
the document shows its day. -/
def specLangChunk (prev : Option Solution) (s : Solution) : String :=
  (if prev.map (fun p => p.lang) == some s.lang then ""
   else (match prev with | none => "" | some _ => sectionClose)
        ++ "== " ++ s.lang ++ "\n\n|===\n")
  ++ ("| " ++ pad2 (if prev.map (fun p => p.day) == some s.day then "" else toString s.day)
      ++ " | " ++ linkOf s)

/-- Claim-side by-language chunk, phrased as the claim states it: within
each language section the day is shown on the first row of a run of equal
consecutive days, so the first row of every section shows its day (the day
cell is blank only when the previous row has the same language and day). -/
def claimLangChunk (prev : Option Solution) (s : Solution) : String :=
  (if prev.map (fun p => p.lang) == some s.lang then ""
   else (match prev with | none => "" | some _ => sectionClose)
        ++ "== " ++ s.lang ++ "\n\n|===\n")
  ++ "| "
  ++ pad2 (if (match prev with
               | some p => p.lang == s.lang && p.day == s.day
               | none => false) then "" else toString s.day)
  ++ " | " ++ linkOf s

/-- The by-language document as the claim describes it (day runs reset at
section boundaries). -/
def claimLangDoc (sols : List Solution) : String :=
  let l := langSorted sols
  topAnchor ++ "= Solutions by language\n\n" ++ navLine
  ++ concatAll (List.zipWith claimLangChunk (none :: l.map some) l)
  ++ (match l with | [] => "" | _ :: _ => docFoot)

/-! ## Concrete inputs used in witnesses and counterexamples -/

/-- A small project tree: `day1/python/alice` (no readme),
`day1/go/bob` (with readme), a malformed `dayX` folder, and a stray file. -/
def demoRoot : List (String × FsEntry) :=
  [("day1", .dir [("python", .dir [("alice", .dir [])]),
                  ("go", .dir [("bob", .dir [("README.adoc", .file)])])]),
   ("dayX", .dir [("python", .dir [("carol", .dir [])])]),
   ("notes.txt", .file)]

/-- A root whose only day directory has a negative suffix. -/
def negRoot : List (String × FsEntry) :=
  [("day-1", .dir [("python", .dir [("alice", .dir [])])])]

/-- Solutions realising the spec's user-index example: alice has 2
solutions (1 documented), bob 1 (1 documented), carol 2 (0 documented). -/
def demoSols : List Solution :=
  [{ user := "alice", lang := "python", day := 1, dir := ["day1", "python", "alice"],
     readme_file := some "README.adoc" },
   { user := "alice", lang := "rust", day := 2, dir := ["day2", "rust", "alice"],
     readme_file := none },
   { user := "bob", lang := "go", day := 1, dir := ["day1", "go", "bob"],
     readme_file := some "README.adoc" },
   { user := "carol", lang := "rust", day := 1, dir := ["day1", "rust", "carol"],
     readme_file := none },
   { user := "carol", lang := "rust", day := 2, dir := ["day2", "rust", "carol"],
     readme_file := none }]

/-- Two solutions with equal day in different languages: the second
language section's first row inherits `cur_day` from the first section. -/
def crossSectionSols : List Solution :=
  [{ user := "u", lang := "a", day := 5, dir := ["day5", "a", "u"], readme_file := none },
   { user := "u", lang := "b", day := 5, dir := ["day5", "b", "u"], readme_file := none }]

/-! ## Order lemmas -/

theorem intLeL_cons (a b : Int) (as bs : List Int) :
    intLeL (a :: as) (b :: bs) = true ↔ (a < b ∨ (a = b ∧ intLeL as bs = true)) := by
  simp [intLeL]

theorem intLtL_cons (a b : Int) (as bs : List Int) :
    intLtL (a :: as) (b :: bs) = true ↔ (a < b ∨ (a = b ∧ intLtL as bs = true)) := by
  simp [intLtL]

theorem intLeL_total : ∀ as bs : List Int, intLeL as bs = true ∨ intLeL bs as = true := by
  intro as
  induction as with
  | nil => intro bs; left; rfl
  | cons a as ih =>
    intro bs
    cases bs with
    | nil => right; rfl
    | cons b bs =>
      rcases lt_trichotomy a b with h | h | h
      · left; rw [intLeL_cons]; exact Or.inl h
      · subst h
        rcases ih bs with h2 | h2
        · left; rw [intLeL_cons]; exact Or.inr ⟨rfl, h2⟩
        · right; rw [intLeL_cons]; exact Or.inr ⟨rfl, h2⟩
      · right; rw [intLeL_cons]; exact Or.inl h

theorem intLeL_trans :
    ∀ as bs cs : List Int,
      intLeL as bs = true → intLeL bs cs = true → intLeL as cs = true := by
  intro as
  induction as with
  | nil => intro bs cs _ _; rfl
  | cons a as ih =>
    intro bs cs h1 h2
    cases bs with
    | nil => simp [intLeL] at h1
    | cons b bs =>
      cases cs with
      | nil => simp [intLeL] at h2
      | cons c cs =>
        rw [intLeL_cons] at h1 h2 ⊢
        rcases h1 with h1 | ⟨e1, r1⟩ <;> rcases h2 with h2 | ⟨e2, r2⟩
        · exact Or.inl (lt_trans h1 h2)
        · exact Or.inl (e2 ▸ h1)
        · exact Or.inl (e1 ▸ h2)
        · exact Or.inr ⟨e1.trans e2, ih bs cs r1 r2⟩

theorem strCodes_nonneg (s : String) : ∀ x ∈ strCodes s, 0 ≤ x := by
  intro x hx
  simp only [strCodes, List.mem_map] at hx
  obtain ⟨c, _, rfl⟩ := hx
  exact Int.natCast_nonneg _

theorem strCodes_inj {a b : String} (h : strCodes a = strCodes b) : a = b := by
  have hinj : Function.Injective (fun c : Char => (c.toNat : Int)) := by
    intro c d hcd
    have h1 : c.toNat = d.toNat := Nat.cast_injective hcd
    exact Char.eq_of_val_eq (UInt32.eq_of_toBitVec_eq (BitVec.eq_of_toNat_eq h1))
  have h2 : a.toList = b.toList := List.map_injective_iff.mpr hinj h
  exact String.ext h2

theorem intLeL_split :
    ∀ (xs ys u v : List Int), (∀ x ∈ xs, 0 ≤ x) → (∀ y ∈ ys, 0 ≤ y) →
      (intLeL (xs ++ (-1 : Int) :: u) (ys ++ (-1 : Int) :: v) = true ↔
        (intLtL xs ys = true ∨ (xs = ys ∧ intLeL u v = true))) := by
  intro xs
  induction xs with
  | nil =>
    intro ys u v _ hy
    cases ys with
    | nil =>
      simp only [List.nil_append, intLeL_cons]
      constructor
      · intro h
        rcases h with h | ⟨_, h⟩
        · omega
        · exact Or.inr ⟨by trivial, h⟩
      · intro h
        rcases h with h | ⟨_, h⟩
        · exact absurd h (by simp [intLtL])
        · exact Or.inr ⟨by trivial, h⟩
    | cons y ys =>
      have h0 : (0 : Int) ≤ y := hy y (List.mem_cons_self y ys)
      simp only [List.nil_append, List.cons_append, intLeL_cons]
      constructor
      · intro _
        exact Or.inl rfl
      · intro _
        exact Or.inl (by omega)
  | cons x xs ih =>
    intro ys u v hx hy
    have hx0 : (0 : Int) ≤ x := hx x (List.mem_cons_self x xs)
    cases ys with
    | nil =>
      simp only [List.cons_append, List.nil_append, intLeL_cons]
      constructor
      · intro h
        rcases h with h | ⟨h, _⟩
        · omega
        · omega
      · intro h
        rcases h with h | ⟨h, _⟩
        · exact absurd h (by simp [intLtL])
        · exact absurd h (by simp)
    | cons y ys =>
      have hx1 : ∀ x2 ∈ xs, (0 : Int) ≤ x2 := fun x2 hm => hx x2 (List.mem_cons_of_mem _ hm)
      have hy1 : ∀ y2 ∈ ys, (0 : Int) ≤ y2 := fun y2 hm => hy y2 (List.mem_cons_of_mem _ hm)
      simp only [List.cons_append, intLeL_cons, intLtL_cons]
      rcases lt_trichotomy x y with h | h | h
      · constructor
        · intro _
          exact Or.inl (Or.inl h)
        · intro _
          exact Or.inl h
      · subst h
        rw [ih ys u v hx1 hy1]
        constructor
        · intro h
          rcases h with h | ⟨_, h⟩
          · omega
          · rcases h with h | ⟨h1, h2⟩
            · exact Or.inl (Or.inr ⟨rfl, h⟩)
            · exact Or.inr ⟨by rw [h1], h2⟩
        · intro h
          rcases h with h | ⟨h1, h2⟩
          · rcases h with h | ⟨_, h⟩
            · omega
            · exact Or.inr ⟨rfl, Or.inl h⟩
          · have h3 : xs = ys := by injection h1
            exact Or.inr ⟨rfl, Or.inr ⟨h3, h2⟩⟩
      · constructor
        · intro hh
          rcases hh with hh | ⟨hh, _⟩
          · omega
          · omega
        · intro hh
          rcases hh with hh | ⟨hh, _⟩
          · rcases hh with hh | ⟨hh, _⟩
            · omega
            · omega
          · have h3 : x = y := by injection hh
            omega

theorem sortedBy_perm (le : α → α → Bool) (l : List α) : (sortedBy le l).Perm l :=
  List.perm_insertionSort _ l

theorem sortedBy_pairwise (le : α → α → Bool)
    (htr : ∀ a b c, le a b = true → le b c = true → le a c = true)
    (hto : ∀ a b, le a b = true ∨ le b a = true) (l : List α) :
    (sortedBy le l).Pairwise (fun a b => le a b = true) :=
  @List.sorted_insertionSort α (fun a b => le a b = true)
    (fun _ _ => instDecidableEqBool _ _) ⟨hto⟩ ⟨fun _ _ _ => htr _ _ _⟩ l

/-! ## The sort comparisons, characterised

Each boolean comparison used by a `sorted` call is shown equivalent to the
lexicographic ordering the spec describes, with strings compared by code
point. -/

theorem scoreLe_iff (a b : String × Nat × Nat) :
    scoreLe a b = true ↔
      (b.2.2 < a.2.2 ∨ (a.2.2 = b.2.2 ∧
        (b.2.1 < a.2.1 ∨ (a.2.1 = b.2.1 ∧ strLe a.1 b.1 = true)))) := by
  simp only [scoreLe, scoreKey, intLeL_cons]
  constructor
  · rintro (h | ⟨e, (h | ⟨e2, hs⟩)⟩)
    · left; omega
    · exact Or.inr ⟨by omega, Or.inl (by omega)⟩
    · exact Or.inr ⟨by omega, Or.inr ⟨by omega, hs⟩⟩
  · rintro (h | ⟨e, (h | ⟨e2, hs⟩)⟩)
    · left; omega
    · exact Or.inr ⟨by omega, Or.inl (by omega)⟩
    · exact Or.inr ⟨by omega, Or.inr ⟨by omega, hs⟩⟩

theorem dayLangLe_iff (a b : Solution) :
    dayLangLe a b = true ↔
      (a.day < b.day ∨ (a.day = b.day ∧ strLe a.lang b.lang = true)) := by
  simp only [dayLangLe, dayLangKey, intLeL_cons]
  exact Iff.rfl

theorem langDayUserLe_iff (a b : Solution) :
    langDayUserLe a b = true ↔
      (strLt a.lang b.lang = true ∨ (a.lang = b.lang ∧
        (a.day < b.day ∨ (a.day = b.day ∧ strLe a.user b.user = true)))) := by
  simp only [langDayUserLe, langDayUserKey]
  rw [intLeL_split _ _ _ _ (strCodes_nonneg _) (strCodes_nonneg _), intLeL_cons]
  constructor
  · rintro (h | ⟨e, h⟩)
    · exact Or.inl h
    · exact Or.inr ⟨strCodes_inj e, h⟩
  · rintro (h | ⟨e, h⟩)
    · exact Or.inl h
    · exact Or.inr ⟨by rw [e], h⟩

theorem dayLangUserLe_iff (a b : Solution) :
    dayLangUserLe a b = true ↔
      (a.day < b.day ∨ (a.day = b.day ∧
        (strLt a.lang b.lang = true ∨ (a.lang = b.lang ∧ strLe a.user b.user = true)))) := by
  simp only [dayLangUserLe, dayLangUserKey, intLeL_cons]
  rw [intLeL_split _ _ _ _ (strCodes_nonneg _) (strCodes_nonneg _)]
  constructor
  · rintro (h | ⟨e, (h | ⟨e2, hs⟩)⟩)
    · exact Or.inl h
    · exact Or.inr ⟨e, Or.inl h⟩
    · exact Or.inr ⟨e, Or.inr ⟨strCodes_inj e2, hs⟩⟩
  · rintro (h | ⟨e, (h | ⟨e2, hs⟩)⟩)
    · exact Or.inl h
    · exact Or.inr ⟨e, Or.inl h⟩
    · exact Or.inr ⟨e, Or.inr ⟨by rw [e2], hs⟩⟩

/-! ## The grouping dict, characterised -/

theorem lookupGroup_nil (u : String) : lookupGroup u [] = [] := rfl

theorem lookupGroup_cons (w : String) (g : List Solution)
    (rest : List (String × List Solution)) (u : String) :
    lookupGroup u ((w, g) :: rest) = if w = u then g else lookupGroup u rest := by
  by_cases h : w = u
  · simp [lookupGroup, List.find?_cons, h]
  · simp [lookupGroup, List.find?_cons, h]

theorem lookupGroup_addSol (gs : List (String × List Solution)) (s : Solution) (u : String) :
    lookupGroup u (addSol gs s)
      = if u = s.user then lookupGroup u gs ++ [s] else lookupGroup u gs := by
  induction gs with
  | nil =>
    simp only [addSol, lookupGroup_cons, lookupGroup_nil]
    by_cases h : u = s.user
    · subst h; simp
    · have h2 : ¬ (s.user = u) := fun e => h e.symm
      simp [h, h2]
  | cons p rest ih =>
    obtain ⟨w, g⟩ := p
    by_cases hw : w = s.user
    · simp only [addSol, if_pos hw, lookupGroup_cons]
      by_cases hu : w = u
      · have h1 : u = s.user := by rw [← hu, hw]
        simp [hu, h1]
      · have h2 : ¬ (u = s.user) := by rw [← hw]; exact fun e => hu e.symm
        simp [hu, h2]
    · simp only [addSol, if_neg hw, lookupGroup_cons, ih]
      by_cases hu : w = u
      · have h2 : ¬ (u = s.user) := by
          intro e
          exact hw (by rw [hu, e])
        simp [hu, h2]
      · simp [hu]

theorem lookupGroup_foldl (sols : List Solution) :
    ∀ (acc : List (String × List Solution)) (u : String),
      lookupGroup u (sols.foldl addSol acc)
        = lookupGroup u acc ++ sols.filter (fun s => decide (s.user = u)) := by
  induction sols with
  | nil => intro acc u; simp
  | cons s rest ih =>
    intro acc u
    rw [List.foldl_cons, ih, lookupGroup_addSol]
    by_cases h : u = s.user
    · have hb : decide (s.user = u) = true := by simp [h.symm]
      simp [List.filter_cons, hb, h]
    · have hb : decide (s.user = u) = false := by
        simp only [decide_eq_false_iff_not]
        exact fun e => h e.symm
      simp [List.filter_cons, hb, h]

theorem lookupGroup_groupByUser (sols : List Solution) (u : String) :
    lookupGroup u (groupByUser sols) = sols.filter (fun s => decide (s.user = u)) := by
  have h := lookupGroup_foldl sols [] u
  simpa [groupByUser, lookupGroup_nil] using h

theorem groupByUser_key_mem {sols : List Solution} {u : String}
    (h : u ∈ sols.map Solution.user) :
    (u, sols.filter (fun s => decide (s.user = u))) ∈ groupByUser sols := by
  have hne : sols.filter (fun s => decide (s.user = u)) ≠ [] := by
    obtain ⟨s, hs, he⟩ := List.mem_map.mp h
    intro hemp
    have hmem : s ∈ sols.filter (fun s2 => decide (s2.user = u)) :=
      List.mem_filter.mpr ⟨hs, by simp [he]⟩
    rw [hemp] at hmem
    cases hmem
  have hlk := lookupGroup_groupByUser sols u
  rcases hfind : (groupByUser sols).find? (fun r => decide (r.1 = u)) with _ | q
  · rw [lookupGroup, hfind] at hlk
    exact absurd hlk.symm hne
  · have hq1 := List.find?_some hfind
    simp only [decide_eq_true_eq] at hq1
    have hqm : q ∈ groupByUser sols := List.mem_of_find?_eq_some hfind
    have hq2 : lookupGroup u (groupByUser sols) = q.2 := by rw [lookupGroup, hfind]
    have hqe : q = (u, sols.filter (fun s => decide (s.user = u))) := by
      obtain ⟨q1, q2⟩ := q
      rw [hq2] at hlk
      simp only at hq1
      simp [hq1]
      exact hlk
    rw [← hqe]
    exact hqm

/-! ## Splitting concatenations -/

theorem concatAll_cons (a : String) (l : List String) :
    concatAll (a :: l) = a ++ concatAll l := rfl

theorem concatAll_mem_split {l : List String} {c : String} (h : c ∈ l) :
    ∃ p q, concatAll l = p ++ (c ++ q) := by
  induction l with
  | nil => cases h
  | cons a rest ih =>
    rcases List.mem_cons.mp h with he | hm
    · subst he
      exact ⟨"", concatAll rest, rfl⟩
    · obtain ⟨p, q, hpq⟩ := ih hm
      exact ⟨a ++ p, q, by rw [concatAll_cons, hpq, String.append_assoc]⟩

/-! ## Scanner lemmas -/

theorem scanUsers_map_dir (dn lg : String) (day : Int) (kids : List (String × FsEntry)) :
    (scanUsers dn lg day kids).map Solution.dir
      = kids.flatMap (fun r =>
          match r.2 with
          | .file => []
          | .dir _ => [[dn, lg, r.1]]) := by
  simp only [scanUsers, List.map_flatMap]
  congr 1
  funext p
  obtain ⟨n, e⟩ := p
  cases e <;> rfl

theorem scanLangs_map_dir (dn : String) (day : Int) (kids : List (String × FsEntry)) :
    (scanLangs dn day kids).map Solution.dir
      = kids.flatMap (fun q =>
          match q.2 with
          | .file => []
          | .dir lc =>
              lc.flatMap (fun r =>
                match r.2 with
                | .file => []
                | .dir _ => [[dn, q.1, r.1]])) := by
  simp only [scanLangs, List.map_flatMap]
  congr 1
  funext q
  obtain ⟨n, e⟩ := q
  cases e with
  | file => rfl
  | dir lc => exact scanUsers_map_dir dn n day lc

theorem list_solutions_map_dir (root : List (String × FsEntry)) :
    (list_solutions root).map Solution.dir = specMatchingDirs root := by
  simp only [list_solutions, specMatchingDirs, List.map_flatMap]
  congr 1
  funext p
  obtain ⟨n, e⟩ := p
  cases e with
  | file => rfl
  | dir dc =>
    cases hs : strStarts n dayPre with
    | false => simp [hs]
    | true =>
      cases hp : pyInt (strDropChars n (strLen dayPre)) with
      | some day => simp [hs, hp, scanLangs_map_dir]
      | none => simp [hs, hp]

theorem scanUsers_mem {dn lg : String} {day : Int} {kids : List (String × FsEntry)}
    {s : Solution} (h : s ∈ scanUsers dn lg day kids) :
    ∃ uc, (s.user, FsEntry.dir uc) ∈ kids ∧ s.lang = lg ∧ s.day = day ∧
      s.dir = [dn, lg, s.user] ∧
      s.readme_file = (if hasReadme uc then some readmeName else none) := by
  rw [scanUsers] at h
  obtain ⟨p, hp, hsp⟩ := List.mem_flatMap.mp h
  obtain ⟨n, e⟩ := p
  cases e with
  | file => simp at hsp
  | dir uc =>
    simp only [List.mem_singleton] at hsp
    subst hsp
    exact ⟨uc, hp, rfl, rfl, rfl, rfl⟩

theorem scanLangs_mem {dn : String} {day : Int} {kids : List (String × FsEntry)}
    {s : Solution} (h : s ∈ scanLangs dn day kids) :
    ∃ lc, (s.lang, FsEntry.dir lc) ∈ kids ∧ ∃ uc, (s.user, FsEntry.dir uc) ∈ lc ∧
      s.day = day ∧ s.dir = [dn, s.lang, s.user] ∧
      s.readme_file = (if hasReadme uc then some readmeName else none) := by
  rw [scanLangs] at h
  obtain ⟨p, hp, hsp⟩ := List.mem_flatMap.mp h
  obtain ⟨n, e⟩ := p
  cases e with
  | file => simp at hsp
  | dir lc =>
    obtain ⟨uc, huc, hlg, hday, hdir, hrd⟩ := scanUsers_mem hsp
    refine ⟨lc, ?_, uc, huc, hday, ?_, hrd⟩
    · rw [hlg]; exact hp
    · rw [hdir, hlg]

theorem list_solutions_mem {root : List (String × FsEntry)} {s : Solution}
    (h : s ∈ list_solutions root) :
    ∃ dn dc, (dn, FsEntry.dir dc) ∈ root ∧ strStarts dn dayPre = true ∧
      pyInt (strDropChars dn (strLen dayPre)) = some s.day ∧
      ∃ lc, (s.lang, FsEntry.dir lc) ∈ dc ∧ ∃ uc, (s.user, FsEntry.dir uc) ∈ lc ∧
        s.dir = [dn, s.lang, s.user] ∧
        s.readme_file = (if hasReadme uc then some readmeName else none) := by
  rw [list_solutions] at h
  obtain ⟨p, hp, hsp⟩ := List.mem_flatMap.mp h
  obtain ⟨n, e⟩ := p
  cases e with
  | file => simp at hsp
  | dir dc =>
    cases hs : strStarts n dayPre with
    | false => simp [hs] at hsp
    | true =>
      cases hpi : pyInt (strDropChars n (strLen dayPre)) with
      | some day =>
        simp only [hs, hpi, if_true] at hsp
        obtain ⟨lc, hlc, uc, huc, hday, hdir, hrd⟩ := scanLangs_mem hsp
        exact ⟨n, dc, hp, hs, by rw [hpi, hday], lc, hlc, uc, huc, hdir, hrd⟩
      | none => simp [hs, hpi] at hsp

/-! ## Writer lemmas -/

theorem langChunk_eq_spec (p : Option Solution) (s : Solution) :
    langChunk (p.map (fun x => x.lang)) (p.map (fun x => x.day)) s = specLangChunk p s := by
  cases p <;> rfl

theorem langChunks_eq_zip (l : List Solution) :
    ∀ (p : Option Solution),
      langChunks (p.map (fun x => x.lang)) (p.map (fun x => x.day)) l
        = List.zipWith specLangChunk (p :: l.map some) l := by
  induction l with
  | nil => intro p; rfl
  | cons s rest ih =>
    intro p
    have h1 := langChunk_eq_spec p s
    have h2 := ih (some s)
    simp only [langChunks, List.map_cons, List.zipWith_cons_cons]
    rw [h1]
    exact congrArg (List.cons (specLangChunk p s)) h2

theorem make_lang_doc_eq_zip (sols : List Solution) :
    make_lang_doc sols
      = topAnchor ++ "= Solutions by language\n\n" ++ navLine
        ++ concatAll (List.zipWith specLangChunk
            (none :: (langSorted sols).map some) (langSorted sols))
        ++ (match langSorted sols with | [] => "" | _ :: _ => docFoot) := by
  rw [← langChunks_eq_zip (langSorted sols) none]
  rfl

theorem langChunks_link_split :
    ∀ (l : List Solution) (cl : Option String) (cd : Option Int) {s : Solution}, s ∈ l →
      ∃ p q, concatAll (langChunks cl cd l) = p ++ (linkOf s ++ q) := by
  intro l
  induction l with
  | nil => intro cl cd s h; cases h
  | cons a rest ih =>
    intro cl cd s h
    rcases List.mem_cons.mp h with he | hm
    · subst he
      refine ⟨(if cl == some s.lang then ""
               else (match cl with | none => "" | some _ => sectionClose)
                    ++ "== " ++ s.lang ++ "\n\n|===\n")
              ++ ("| " ++ pad2 (if cd == some s.day then "" else toString s.day) ++ " | "),
              concatAll (langChunks (some s.lang) (some s.day) rest), ?_⟩
      simp only [langChunks, concatAll_cons, langChunk, langRow, String.append_assoc]
    · obtain ⟨p, q, hpq⟩ := ih (some a.lang) (some a.day) hm
      refine ⟨langChunk cl cd a ++ p, q, ?_⟩
      rw [langChunks, concatAll_cons, hpq, String.append_assoc]

theorem dayChunks_link_split :
    ∀ (l : List Solution) (cd : Option Int) (cl : Option String) {s : Solution}, s ∈ l →
      ∃ p q, concatAll (dayChunks cd cl l) = p ++ (linkOf s ++ q) := by
  intro l
  induction l with
  | nil => intro cd cl s h; cases h
  | cons a rest ih =>
    intro cd cl s h
    rcases List.mem_cons.mp h with he | hm
    · subst he
      refine ⟨(if cd == some s.day then ""
               else (match cd with | none => "" | some _ => sectionClose)
                    ++ "== Day " ++ toString s.day ++ "\n\n|===\n")
              ++ ("| " ++ pad10r (if cl == some s.lang then "" else s.lang) ++ " | "),
              concatAll (dayChunks (some s.day) (some s.lang) rest), ?_⟩
      simp only [dayChunks, concatAll_cons, dayChunk, dayRow, String.append_assoc]
    · obtain ⟨p, q, hpq⟩ := ih (some a.day) (some a.lang) hm
      refine ⟨dayChunk cd cl a ++ p, q, ?_⟩
      rw [dayChunks, concatAll_cons, hpq, String.append_assoc]

theorem make_lang_contains_link {sols : List Solution} {s : Solution} (h : s ∈ sols) :
    ∃ p q, make_lang_doc sols = p ++ (linkOf s ++ q) := by
  have hm : s ∈ langSorted sols := ((sortedBy_perm langDayUserLe sols).mem_iff).mpr h
  obtain ⟨p, q, hpq⟩ := langChunks_link_split (langSorted sols) none none hm
  refine ⟨topAnchor ++ "= Solutions by language\n\n" ++ navLine ++ p,
          q ++ (match langSorted sols with | [] => "" | _ :: _ => docFoot), ?_⟩
  simp only [make_lang_doc, hpq, String.append_assoc]

theorem make_day_contains_link {sols : List Solution} {s : Solution} (h : s ∈ sols) :
    ∃ p q, make_day_doc sols = p ++ (linkOf s ++ q) := by
  have hm : s ∈ daySorted sols := ((sortedBy_perm dayLangUserLe sols).mem_iff).mpr h
  obtain ⟨p, q, hpq⟩ := dayChunks_link_split (daySorted sols) none none hm
  refine ⟨topAnchor ++ "= Solutions by day\n\n" ++ navLine ++ p,
          q ++ (match daySorted sols with | [] => "" | _ :: _ => docFoot), ?_⟩
  simp only [make_day_doc, hpq, String.append_assoc]

theorem userFiles_mem {sols : List Solution} {s : Solution} (h : s ∈ sols) :
    (s.user, userPageFor s.user (sols.filter (fun x => decide (x.user = s.user))))
      ∈ (make_user_docs sols).userFiles := by
  have hu : s.user ∈ sols.map Solution.user := List.mem_map_of_mem _ h
  have hg := groupByUser_key_mem hu
  have hs1 : (s.user, (sols.filter (fun x => decide (x.user = s.user))).length,
      docCount (sols.filter (fun x => decide (x.user = s.user)))) ∈ userScores sols :=
    List.mem_map_of_mem (fun p : String × List Solution => (p.1, p.2.length, docCount p.2)) hg
  have hs2 : (s.user, (sols.filter (fun x => decide (x.user = s.user))).length,
      docCount (sols.filter (fun x => decide (x.user = s.user)))) ∈ userScoresSorted sols :=
    ((sortedBy_perm scoreLe (userScores sols)).mem_iff).mpr hs1
  have hs3 := List.mem_map_of_mem
    (fun x : String × Nat × Nat =>
      (x.1, userPageFor x.1 (lookupGroup x.1 (groupByUser sols)))) hs2
  simp only [] at hs3
  rw [lookupGroup_groupByUser] at hs3
  exact hs3

theorem index_line_split {sols : List Solution} {u : String}
    (hu : u ∈ sols.map Solution.user) :
    ∃ t d p q, (make_user_docs sols).index = p ++ (indexLine u t d ++ q) := by
  have hg := groupByUser_key_mem hu
  have hs1 : (u, (sols.filter (fun x => decide (x.user = u))).length,
      docCount (sols.filter (fun x => decide (x.user = u)))) ∈ userScores sols :=
    List.mem_map_of_mem (fun p : String × List Solution => (p.1, p.2.length, docCount p.2)) hg
  have hs2 : (u, (sols.filter (fun x => decide (x.user = u))).length,
      docCount (sols.filter (fun x => decide (x.user = u)))) ∈ userScoresSorted sols :=
    ((sortedBy_perm scoreLe (userScores sols)).mem_iff).mpr hs1
  have hs3 := List.mem_map_of_mem
    (fun x : String × Nat × Nat => indexLine x.1 x.2.1 x.2.2) hs2
  obtain ⟨p, q, hpq⟩ := concatAll_mem_split hs3
  refine ⟨(sols.filter (fun x => decide (x.user = u))).length,
          docCount (sols.filter (fun x => decide (x.user = u))),
          topAnchor ++ "= Solutions by user\n\n" ++ navLine ++ "|===\n" ++ p,
          q ++ "|===\n", ?_⟩
  simp only [make_user_docs, hpq, String.append_assoc]

theorem userPage_entry_split {u : String} {usols : List Solution} {s : Solution}
    (h : s ∈ usols) :
    ∃ p q, userPageFor u usols = p ++ (userEntry s ++ q) := by
  have hm : s ∈ sortedBy dayLangLe usols := ((sortedBy_perm dayLangLe usols).mem_iff).mpr h
  have hmm := List.mem_map_of_mem userEntry hm
  obtain ⟨p, q, hpq⟩ := concatAll_mem_split hmm
  refine ⟨topAnchor ++ "= Solutions by " ++ u ++ "\n\n" ++ navLineUp ++ p, q, ?_⟩
  simp only [userPageFor, hpq, String.append_assoc]

/-! ## Claim theorems -/

/-- C1: the scanner produces exactly one Solution per directory path of
shape `day<N>/<language>/<user>` whose day suffix parses as an integer —
the list of produced directory paths equals the spec-side enumeration of
shape-matching directories (a bijection, position by position) — and every
produced Solution's `(user, language, day)` triple is read off such a
path: `user` and `language` are the last two segments and `day` is parsed
from the first segment's suffix after `"day"`. -/
theorem list_solutions_bijection (root : List (String × FsEntry)) :
    (list_solutions root).map Solution.dir = specMatchingDirs root ∧
    ∀ s ∈ list_solutions root, ∃ d l u, s.dir = [d, l, u] ∧ s.user = u ∧ s.lang = l ∧
      strStarts d dayPre = true ∧ pyInt (strDropChars d (strLen dayPre)) = some s.day := by
  refine ⟨list_solutions_map_dir root, ?_⟩
  intro s hs
  obtain ⟨dn, dc, _, hstart, hpi, lc, _, uc, _, hdir, _⟩ := list_solutions_mem hs
  exact ⟨dn, s.lang, s.user, hdir, rfl, rfl, hstart, hpi⟩

/-- Witness for C1: the bijection at a concrete tree, and the triple
correspondence at the `day1/python/alice` solution it discovers. -/
theorem list_solutions_bijection_witness :
    (list_solutions demoRoot).map Solution.dir = specMatchingDirs demoRoot ∧
    ∃ d l u, (["day1", "python", "alice"] : List String) = [d, l, u] ∧
      ("alice" : String) = u ∧ ("python" : String) = l ∧ strStarts d dayPre = true ∧
      pyInt (strDropChars d (strLen dayPre)) = some 1 :=
  ⟨(list_solutions_bijection demoRoot).1,
   (list_solutions_bijection demoRoot).2
     { user := "alice", lang := "python", day := 1, dir := ["day1", "python", "alice"],
       readme_file := none } (by decide)⟩

/-- C5 counterexample: the claim says a directory whose suffix parses as a
negative integer produces no Solution, but Python `int()` accepts a sign:
`day-1/python/alice` produces a Solution with day `-1`. -/
theorem list_solutions_negative_cex :
    pyInt "-1" = some (-1) ∧ (list_solutions negRoot).map (fun s => s.day) = [-1] :=
  ⟨by decide, by decide⟩

/-- C5 (amended): the scanner keeps a child of the root only if it is a
directory whose name starts with the fixed prefix `"day"` and whose suffix
parses as a Python integer; the integer may be negative (the sign is
accepted), and a directory with a negative-integer suffix does produce
Solutions carrying that negative day. -/
theorem list_solutions_kept_children (root : List (String × FsEntry)) :
    ∀ s ∈ list_solutions root,
      ∃ d dc, (d, FsEntry.dir dc) ∈ root ∧ strStarts d dayPre = true ∧
        pyInt (strDropChars d (strLen dayPre)) = some s.day ∧
        ∃ lc, (s.lang, FsEntry.dir lc) ∈ dc ∧ ∃ uc, (s.user, FsEntry.dir uc) ∈ lc ∧
          s.dir = [d, s.lang, s.user] := by
  intro s hs
  obtain ⟨dn, dc, hroot, hstart, hpi, lc, hlc, uc, huc, hdir, _⟩ := list_solutions_mem hs
  exact ⟨dn, dc, hroot, hstart, hpi, lc, hlc, uc, huc, hdir⟩

/-- Witness for the amended C5 at the negative-day tree: the produced
Solution with day `-1` traces back to the kept `day-1` directory. -/
theorem list_solutions_kept_children_witness :
    ∃ d dc, (d, FsEntry.dir dc) ∈ negRoot ∧ strStarts d dayPre = true ∧
      pyInt (strDropChars d (strLen dayPre)) = some (-1) ∧
      ∃ lc, (("python" : String), FsEntry.dir lc) ∈ dc ∧
        ∃ uc, (("alice" : String), FsEntry.dir uc) ∈ lc ∧
          (["day-1", "python", "alice"] : List String) = [d, "python", "alice"] :=
  list_solutions_kept_children negRoot
    { user := "alice", lang := "python", day := -1, dir := ["day-1", "python", "alice"],
      readme_file := none } (by decide)

/-- C6: malformed and non-directory entries are skipped silently and
contribute zero Solutions: a root child whose suffix after `"day"` does not
parse contributes nothing (whatever kind of entry it is), and non-directory
entries at the root, language and user levels contribute nothing; the
scanner is a total function, so no error is raised. -/
theorem list_solutions_skips :
    (∀ (dn : String) (e : FsEntry) (rest : List (String × FsEntry)),
        pyInt (strDropChars dn (strLen dayPre)) = none →
        list_solutions ((dn, e) :: rest) = list_solutions rest) ∧
    (∀ (n : String) (rest : List (String × FsEntry)),
        list_solutions ((n, FsEntry.file) :: rest) = list_solutions rest) ∧
    (∀ (dn : String) (day : Int) (n : String) (rest : List (String × FsEntry)),
        scanLangs dn day ((n, FsEntry.file) :: rest) = scanLangs dn day rest) ∧
    (∀ (dn lg : String) (day : Int) (n : String) (rest : List (String × FsEntry)),
        scanUsers dn lg day ((n, FsEntry.file) :: rest) = scanUsers dn lg day rest) := by
  refine ⟨?_, ?_, ?_, ?_⟩
  · intro dn e rest hpi
    cases e with
    | file => simp [list_solutions]
    | dir dc =>
      cases hs : strStarts dn dayPre with
      | false => simp [list_solutions, hs]
      | true => simp [list_solutions, hs, hpi]
  · intro n rest
    simp [list_solutions]
  · intro dn day n rest
    simp [scanLangs]
  · intro dn lg day n rest
    simp [scanUsers]

/-- Witness for C6: a `dayX` folder with content below it yields exactly
the scan of the rest (here: nothing), without an error. -/
theorem list_solutions_skips_witness :
    pyInt (strDropChars "dayX" (strLen dayPre)) = none ∧
    list_solutions
        [("dayX", FsEntry.dir [("python", FsEntry.dir [("carol", FsEntry.dir [])])])]
      = list_solutions [] :=
  ⟨by decide,
   list_solutions_skips.1 "dayX"
     (FsEntry.dir [("python", FsEntry.dir [("carol", FsEntry.dir [])])]) [] (by decide)⟩

/-- C2: users in the index are emitted sorted by documented-count
descending, then total-count descending, then user name ascending
(lexicographic by code point): the emitted score sequence is a permutation
of the per-user scores, pairwise in that order, the index document is the
header plus one summary line per user in exactly that order, and the
per-user files are written in the same order. -/
theorem make_user_docs_index_sorted (sols : List Solution) :
    (userScoresSorted sols).Perm (userScores sols) ∧
    (userScoresSorted sols).Pairwise (fun a b =>
      b.2.2 < a.2.2 ∨ (a.2.2 = b.2.2 ∧
        (b.2.1 < a.2.1 ∨ (a.2.1 = b.2.1 ∧ strLe a.1 b.1 = true)))) ∧
    (make_user_docs sols).index
      = topAnchor ++ "= Solutions by user\n\n" ++ navLine ++ "|===\n"
        ++ concatAll ((userScoresSorted sols).map (fun x => indexLine x.1 x.2.1 x.2.2))
        ++ "|===\n" ∧
    (make_user_docs sols).userFiles.map Prod.fst = (userScoresSorted sols).map Prod.fst := by
  refine ⟨sortedBy_perm _ _, ?_, rfl, ?_⟩
  · have hp := sortedBy_pairwise scoreLe
      (fun a b c h1 h2 => intLeL_trans (scoreKey a) (scoreKey b) (scoreKey c) h1 h2)
      (fun a b => intLeL_total (scoreKey a) (scoreKey b)) (userScores sols)
    exact hp.imp (fun hab => (scoreLe_iff _ _).mp hab)
  · simp [make_user_docs, List.map_map, Function.comp]

/-- C3 counterexample: with alice at 2 total/1 documented, bob at 1
total/1 documented and carol at 2 total/0 documented, the emitted order is
not bob, alice, carol: the documented counts of alice and bob tie, and the
key `(-n_doc, -n_tot, user)` then puts alice (larger total) first. -/
theorem make_user_docs_order_cex :
    (make_user_docs demoSols).userFiles.map Prod.fst ≠ ["bob", "alice", "carol"] := by
  decide

/-- C3 (amended): for that input the user-index ordering is alice, bob,
carol — the documented-count tie between alice and bob is broken by total
count descending, and carol with 0 documented comes last. -/
theorem make_user_docs_order_amended :
    (userScoresSorted demoSols).map Prod.fst = ["alice", "bob", "carol"] ∧
    (make_user_docs demoSols).userFiles.map Prod.fst = ["alice", "bob", "carol"] :=
  ⟨by decide, by decide⟩

/-- C9: the document writer is deterministic — the three writer functions
are pure functions of the scanned solution sequence (CPython dict
iteration order, sort stability and string formatting are themselves
deterministic), so two runs on the same sequence produce byte-identical
index, per-user, by-language and by-day documents. -/
theorem writer_deterministic (s1 s2 : List Solution) (h : s1 = s2) :
    make_user_docs s1 = make_user_docs s2 ∧ make_lang_doc s1 = make_lang_doc s2 ∧
    make_day_doc s1 = make_day_doc s2 := by
  subst h
  exact ⟨rfl, rfl, rfl⟩

/-- Witness for C9 at a concrete solution sequence. -/
theorem writer_deterministic_witness :
    make_user_docs demoSols = make_user_docs demoSols ∧
    make_lang_doc demoSols = make_lang_doc demoSols ∧
    make_day_doc demoSols = make_day_doc demoSols :=
  writer_deterministic demoSols demoSols rfl

/-- Helper: the row link rendered with the anchor inlined. -/
theorem linkOf_eq (s : Solution) :
    linkOf s = "link:users/" ++ pyQuote s.user ++ ".html#sol-" ++ toString s.day
               ++ "[" ++ s.user ++ "]\n" := by
  simp only [linkOf, anchorOf, String.append_assoc]
  rw [← String.append_assoc ".html#" "sol-"]
  rfl

set_option maxRecDepth 8000 in
/-- C4 counterexample: `cur_day` is not reset at a language-section
boundary, so with two solutions of equal day in languages `a` and `b` the
first row of section `b` shows a blank day cell; the document therefore
differs from the one the claim describes (day runs reset per section,
first row of every section showing its day). -/
theorem make_lang_doc_section_cex :
    make_lang_doc crossSectionSols ≠ claimLangDoc crossSectionSols := by
  decide

/-- C4 (amended): by-language rows are sorted by (language ascending, day
ascending, user ascending), and the day number is shown exactly when it
differs from the day of the immediately preceding row of the document —
runs of equal days are tracked across section boundaries, not reset — so
the first row of the whole document shows its day, but the first row of a
later section shows its day only if it differs from the last day of the
previous section. -/
theorem make_lang_doc_day_suppression (sols : List Solution) :
    (langSorted sols).Perm sols ∧
    (langSorted sols).Pairwise (fun a b =>
      strLt a.lang b.lang = true ∨ (a.lang = b.lang ∧
        (a.day < b.day ∨ (a.day = b.day ∧ strLe a.user b.user = true)))) ∧
    make_lang_doc sols
      = topAnchor ++ "= Solutions by language\n\n" ++ navLine
        ++ concatAll (List.zipWith specLangChunk
            (none :: (langSorted sols).map some) (langSorted sols))
        ++ (match langSorted sols with | [] => "" | _ :: _ => docFoot) := by
  refine ⟨sortedBy_perm _ _, ?_, make_lang_doc_eq_zip sols⟩
  have hp := sortedBy_pairwise langDayUserLe
    (fun a b c h1 h2 => intLeL_trans (langDayUserKey a) (langDayUserKey b) (langDayUserKey c) h1 h2)
    (fun a b => intLeL_total (langDayUserKey a) (langDayUserKey b)) sols
  exact hp.imp (fun hab => (langDayUserLe_iff _ _).mp hab)

/-- C7: user names in generated link targets are percent-encoded while day
numbers are rendered verbatim: for every solution, the by-language and
by-day documents contain the link
`link:users/<quote user>.html#sol-<day>[<user>]`, and for every user the
index contains `| link:users/<quote user>.html[<user>] | `; language
identifiers never occur inside a URL. -/
theorem generated_links_encode_user (sols : List Solution) :
    (∀ s ∈ sols,
      (∃ p q, make_lang_doc sols
        = p ++ (("link:users/" ++ pyQuote s.user ++ ".html#sol-" ++ toString s.day
                 ++ "[" ++ s.user ++ "]\n") ++ q)) ∧
      (∃ p q, make_day_doc sols
        = p ++ (("link:users/" ++ pyQuote s.user ++ ".html#sol-" ++ toString s.day
                 ++ "[" ++ s.user ++ "]\n") ++ q))) ∧
    (∀ u ∈ sols.map Solution.user,
      ∃ p q, (make_user_docs sols).index
        = p ++ (("| link:users/" ++ pyQuote u ++ ".html[" ++ u ++ "] | ") ++ q)) := by
  constructor
  · intro s hs
    constructor
    · obtain ⟨p, q, hpq⟩ := make_lang_contains_link hs
      refine ⟨p, q, ?_⟩
      rw [← linkOf_eq s]
      exact hpq
    · obtain ⟨p, q, hpq⟩ := make_day_contains_link hs
      refine ⟨p, q, ?_⟩
      rw [← linkOf_eq s]
      exact hpq
  · intro u hu
    obtain ⟨t, d, p, q, hpq⟩ := index_line_split hu
    refine ⟨p, toString t ++ (" Solution" ++ (plural t ++ (" (" ++ (toString d
            ++ (" documented)\n" ++ q))))), ?_⟩
    rw [hpq]
    simp only [indexLine, String.append_assoc]

/-- Witness for C7 at a concrete sequence, for user bob and his day-1
solution. -/
theorem generated_links_encode_user_witness :
    ((∃ p q, make_lang_doc demoSols
        = p ++ (("link:users/" ++ pyQuote "bob" ++ ".html#sol-" ++ toString (1 : Int)
                 ++ "[" ++ "bob" ++ "]\n") ++ q)) ∧
     (∃ p q, make_day_doc demoSols
        = p ++ (("link:users/" ++ pyQuote "bob" ++ ".html#sol-" ++ toString (1 : Int)
                 ++ "[" ++ "bob" ++ "]\n") ++ q))) ∧
    (∃ p q, (make_user_docs demoSols).index
        = p ++ (("| link:users/" ++ pyQuote "bob" ++ ".html[" ++ "bob" ++ "] | ") ++ q)) :=
  ⟨(generated_links_encode_user demoSols).1
     { user := "bob", lang := "go", day := 1, dir := ["day1", "go", "bob"],
       readme_file := some "README.adoc" } (by decide),
   (generated_links_encode_user demoSols).2 "bob" (by decide)⟩

/-- C8: each emitted per-user page consists of the page header followed by
the rendered entries of a list `l` that is a permutation of exactly that
user's solutions, pairwise sorted by (day ascending, language ascending);
and every solution in `l` without a documentation reference contributes
the generated placeholder heading naming its language and day. -/
theorem make_user_docs_user_pages (sols : List Solution) :
    ∀ u c, (u, c) ∈ (make_user_docs sols).userFiles →
      ∃ l : List Solution, l.Perm (sols.filter (fun x => decide (x.user = u))) ∧
        l.Pairwise (fun a b =>
          a.day < b.day ∨ (a.day = b.day ∧ strLe a.lang b.lang = true)) ∧
        c = topAnchor ++ "= Solutions by " ++ u ++ "\n\n" ++ navLineUp
            ++ concatAll (l.map userEntry) ∧
        ∀ s ∈ l, s.readme_file = none →
          ∃ p q, c = p ++ (("== Undocumented " ++ s.lang ++ " solution for day "
                            ++ toString s.day ++ "\n") ++ q) := by
  intro u c hc
  have hc2 : (u, c) ∈ (userScoresSorted sols).map
      (fun x => (x.1, userPageFor x.1 (lookupGroup x.1 (groupByUser sols)))) := hc
  obtain ⟨x, hx, hxe⟩ := List.mem_map.mp hc2
  have hu : x.1 = u := congrArg Prod.fst hxe
  have hcc : c = userPageFor x.1 (lookupGroup x.1 (groupByUser sols)) :=
    (congrArg Prod.snd hxe).symm
  rw [hu, lookupGroup_groupByUser] at hcc
  refine ⟨sortedBy dayLangLe (sols.filter (fun x2 => decide (x2.user = u))),
          sortedBy_perm _ _, ?_, ?_, ?_⟩
  · have hp := sortedBy_pairwise dayLangLe
      (fun a b c2 h1 h2 => intLeL_trans (dayLangKey a) (dayLangKey b) (dayLangKey c2) h1 h2)
      (fun a b => intLeL_total (dayLangKey a) (dayLangKey b))
      (sols.filter (fun x2 => decide (x2.user = u)))
    exact hp.imp (fun hab => (dayLangLe_iff _ _).mp hab)
  · rw [hcc]
    rfl
  · intro s hsl hrd
    have hsf : s ∈ sols.filter (fun x2 => decide (x2.user = u)) :=
      ((sortedBy_perm dayLangLe _).mem_iff).mp hsl
    obtain ⟨p, q, hpq⟩ := userPage_entry_split (u := u) hsf
    refine ⟨p ++ ("\n[[" ++ anchorOf s.day ++ "]]\n"), "link:#top[Top]\n" ++ q, ?_⟩
    rw [hcc, hpq]
    have hre : resolveReadme s = none := by simp [resolveReadme, hrd, pyTruthy]
    simp only [userEntry, hre, placeholderFor, String.append_assoc]

set_option maxRecDepth 8000 in
/-- Witness for C8 at a concrete sequence, for user carol (two
undocumented solutions). -/
theorem make_user_docs_user_pages_witness :
    ∃ l : List Solution, l.Perm (demoSols.filter (fun x => decide (x.user = "carol"))) ∧
      l.Pairwise (fun a b =>
        a.day < b.day ∨ (a.day = b.day ∧ strLe a.lang b.lang = true)) ∧
      userPageFor "carol" (demoSols.filter (fun x => decide (x.user = "carol")))
        = topAnchor ++ "= Solutions by " ++ "carol" ++ "\n\n" ++ navLineUp
          ++ concatAll (l.map userEntry) ∧
      ∀ s ∈ l, s.readme_file = none →
        ∃ p q, userPageFor "carol" (demoSols.filter (fun x => decide (x.user = "carol")))
          = p ++ (("== Undocumented " ++ s.lang ++ " solution for day "
                   ++ toString s.day ++ "\n") ++ q) :=
  make_user_docs_user_pages demoSols "carol"
    (userPageFor "carol" (demoSols.filter (fun x => decide (x.user = "carol"))))
    (by decide)

/-- C10: anchors depend only on the day: the anchor of a solution entry is
`sol-<day>` — equal days give equal anchors, whatever the languages — and
the emitted documents use exactly it: the owner's page contains
`[[sol-<day>]]` for every solution, and the by-language and by-day rows
link to `#sol-<day>`. In particular two solutions by the same user for the
same day in different languages receive the identical anchor on that
user's page. -/
theorem anchors_depend_only_on_day (sols : List Solution) :
    (∀ a b : Solution, a.day = b.day → anchorOf a.day = anchorOf b.day) ∧
    (∀ s ∈ sols,
      (∃ c, (s.user, c) ∈ (make_user_docs sols).userFiles ∧
        ∃ p q, c = p ++ (("\n[[" ++ anchorOf s.day ++ "]]\n") ++ q)) ∧
      (∃ p q, make_lang_doc sols = p ++ ((".html#" ++ anchorOf s.day ++ "[") ++ q)) ∧
      (∃ p q, make_day_doc sols = p ++ ((".html#" ++ anchorOf s.day ++ "[") ++ q))) := by
  refine ⟨fun a b h => by rw [h], ?_⟩
  intro s hs
  refine ⟨?_, ?_, ?_⟩
  · refine ⟨userPageFor s.user (sols.filter (fun x => decide (x.user = s.user))),
            userFiles_mem hs, ?_⟩
    have hsf : s ∈ sols.filter (fun x => decide (x.user = s.user)) :=
      List.mem_filter.mpr ⟨hs, by simp⟩
    obtain ⟨p, q, hpq⟩ := userPage_entry_split (u := s.user) hsf
    refine ⟨p, (match resolveReadme s with
                | some r => if r == "" then placeholderFor s
                            else "include::" ++ r ++ "[leveloffset=0]\n"
                | none => placeholderFor s) ++ ("link:#top[Top]\n" ++ q), ?_⟩
    rw [hpq]
    simp only [userEntry, String.append_assoc]
  · obtain ⟨p, q, hpq⟩ := make_lang_contains_link hs
    refine ⟨p ++ ("link:users/" ++ pyQuote s.user), s.user ++ ("]\n" ++ q), ?_⟩
    rw [hpq]
    simp only [linkOf, String.append_assoc]
  · obtain ⟨p, q, hpq⟩ := make_day_contains_link hs
    refine ⟨p ++ ("link:users/" ++ pyQuote s.user), s.user ++ ("]\n" ++ q), ?_⟩
    rw [hpq]
    simp only [linkOf, String.append_assoc]

/-- Witness for C10: equal anchors for the two equal-day solutions in
languages `a` and `b`, and the emitted anchors for alice's day-1 solution
at a concrete sequence. -/
theorem anchors_depend_only_on_day_witness :
    (anchorOf (5 : Int) = anchorOf (5 : Int)) ∧
    ((∃ c, (("alice" : String), c) ∈ (make_user_docs demoSols).userFiles ∧
        ∃ p q, c = p ++ (("\n[[" ++ anchorOf (1 : Int) ++ "]]\n") ++ q)) ∧
     (∃ p q, make_lang_doc demoSols = p ++ ((".html#" ++ anchorOf (1 : Int) ++ "[") ++ q)) ∧
     (∃ p q, make_day_doc demoSols = p ++ ((".html#" ++ anchorOf (1 : Int) ++ "[") ++ q))) :=
  ⟨(anchors_depend_only_on_day crossSectionSols).1
     { user := "u", lang := "a", day := 5, dir := ["day5", "a", "u"], readme_file := none }
     { user := "u", lang := "b", day := 5, dir := ["day5", "b", "u"], readme_file := none }
     rfl,
   (anchors_depend_only_on_day demoSols).2
     { user := "alice", lang := "python", day := 1, dir := ["day1", "python", "alice"],
       readme_file := some "README.adoc" } (by decide)⟩
